import Mathlib

/-!
Verification of the mypy-upgrade suppression-placement engine.

The Python sources `mypy_upgrade/utils.py`, `mypy_upgrade/editing.py` and
`mypy_upgrade/__main__.py` are shallowly embedded here.  Python strings are
modelled as `List Char`, Python integers as `Int`, and the recursive
resolver `find_safe_end_line` (whose Python form recurses on a freshly
constructed error record) is given explicit fuel; the wrapper fixes the fuel
at `regions.length + 1`, which suffices for all well-formed region lists
(proved below).
-/

/-- Error record (`mypy_upgrade.parsing.MypyError`).
Modelled from the spec: the module `mypy_upgrade/parsing.py` is not among
the provided sources; the spec's Data Model section gives the fields
(`filename`, `line_no`, `col_offset` optional, `message`, `error_code`),
and the constructor-argument order is fixed by the call
`MypyError(error.filename, new_line, new_col_offset, error.message,
error.error_code)` in `utils.py`. -/
structure MypyError where
  filename : List Char
  line_no : Int
  col_offset : Option Int
  message : List Char
  error_code : List Char
deriving DecidableEq, Repr

/-- `UnsilenceableRegion` from `utils.py`: `start` and `stop` are
(line, column) pairs; `stop` embeds the Python field `end`, which is a
reserved word in Lean. -/
structure UnsilenceableRegion where
  start : Int × Int
  stop : Int × Int
deriving DecidableEq, Repr

/-- Python tuple comparison `a <= b` on (line, column) pairs:
lexicographic. -/
def pairLe (a b : Int × Int) : Bool :=
  decide (a.1 < b.1) || (decide (a.1 = b.1) && decide (a.2 ≤ b.2))

/-- The per-region skip in `find_safe_end_line`: it is safe to comment the
last line of a multiline string (`error.line_no == region.end[0] and
region.start[0] != region.end[0]`). -/
def isEndSkip (e : MypyError) (r : UnsilenceableRegion) : Bool :=
  decide (e.line_no = r.stop.1) && !(decide (r.start.1 = r.stop.1))

/-- `error.col_offset is None and region.start[0] <= error.line_no <=
region.end[0]` from `find_safe_end_line`. -/
def colUnknownOverlap (e : MypyError) (r : UnsilenceableRegion) : Bool :=
  e.col_offset.isNone && decide (r.start.1 ≤ e.line_no)
    && decide (e.line_no ≤ r.stop.1)

/-- `error.col_offset is not None and region.start <= (error.line_no,
error.col_offset) <= region.end` from `find_safe_end_line`. -/
def colKnownInSpan (e : MypyError) (r : UnsilenceableRegion) : Bool :=
  match e.col_offset with
  | some c => pairLe r.start (e.line_no, c) && pairLe (e.line_no, c) r.stop
  | none => false

/-- `error.line_no == region.start[0] and region.start[0] != region.end[0]`:
the error is on the opening line of a multiline string (and, the previous
checks having failed, precedes it), so the resolver records the region's
end coordinates. -/
def isStartRedirect (e : MypyError) (r : UnsilenceableRegion) : Bool :=
  decide (e.line_no = r.start.1) && !(decide (r.start.1 = r.stop.1))

/-- The `for region in unsilenceable_regions` loop of `find_safe_end_line`.
`none` models the early `return -1`; `some acc` models falling out of the
loop with `new_line`/`new_col_offset` equal to `acc` (Python's `None` when
`acc = none`).  Later redirecting regions overwrite `acc`, as in the
Python loop. -/
def fselLoop (e : MypyError) :
    List UnsilenceableRegion → Option (Int × Int) → Option (Option (Int × Int))
  | [], acc => some acc
  | r :: rs, acc =>
    if isEndSkip e r then fselLoop e rs acc
    else if colUnknownOverlap e r then none
    else if colKnownInSpan e r then none
    else if isStartRedirect e r then fselLoop e rs (some (r.stop.1, r.stop.2))
    else fselLoop e rs acc

/-- `find_safe_end_line`, with explicit fuel standing in for the Python
self-recursion on the relocated error record.  `none` means the fuel ran
out (the Python original would still be recursing). -/
def find_safe_end_line_fuel :
    Nat → MypyError → List UnsilenceableRegion → Option Int
  | 0, _, _ => none
  | fuel + 1, e, rs =>
    match fselLoop e rs none with
    | none => some (-1)
    | some none => some e.line_no
    | some (some (l, c)) =>
        find_safe_end_line_fuel fuel
          { e with line_no := l, col_offset := some c } rs

/-- `find_safe_end_line` at the fuel bound `regions.length + 1`, which is
reached for every region list whose multiline regions end no earlier than
they start (see the termination theorem below). -/
def find_safe_end_line (e : MypyError) (rs : List UnsilenceableRegion) :
    Option Int :=
  find_safe_end_line_fuel (rs.length + 1) e rs

/-- `correct_line_numbers` from `utils.py`, parametrised by the region list
(the Python source computes it from the stream via
`find_unsilenceable_regions`; the partition logic embedded here starts at
the line `unsilenceable_regions = ...` result).  The `Option` propagates a
resolver fuel exhaustion, which models divergence of the Python original
and never occurs for well-formed regions. -/
def correct_line_numbers (regions : List UnsilenceableRegion) :
    List MypyError → Option (List MypyError × List MypyError)
  | [] => some ([], [])
  | e :: es => do
    let el ← find_safe_end_line e regions
    let (ls, us) ← correct_line_numbers regions es
    if el = -1 then pure (ls, e :: us)
    else pure ({ e with line_no := el } :: ls, us)

/-- ASCII model of Python's `\s` / `str.isspace` character set. -/
def pyIsSpace (c : Char) : Bool :=
  c = ' ' || c = '\t' || c = '\n' || c = '\r' || c = '\x0b' || c = '\x0c'

/-- The character class `[a-z, \-]` of the type-ignore regexes. -/
def classChar (c : Char) : Bool :=
  ('a' ≤ c && c ≤ 'z') || c = ',' || c = ' ' || c = '-'

/-- Python `str.rstrip()` (trailing whitespace removal). -/
def rstrip (s : List Char) : List Char :=
  (s.reverse.dropWhile pyIsSpace).reverse

/-- Python `str.strip()` (whitespace removal at both ends). -/
def pyStrip (s : List Char) : List Char :=
  rstrip (s.dropWhile pyIsSpace)

/-- Python `str.lstrip("# ")` as used on comment remainders. -/
def lstripHashSpace (s : List Char) : List Char :=
  s.dropWhile (fun c => c = '#' || c = ' ')

/-- Python `comment.replace(" ", "")`. -/
def removeSpaces (s : List Char) : List Char :=
  s.filter (fun c => !(c = ' '))

/-- `re.search(r"[^#\s]", s)` succeeds: some character is neither `#` nor
whitespace. -/
def hasVisible (s : List Char) : Bool :=
  s.any (fun c => !(c = '#' || pyIsSpace c))

/-- Python `line.find(ch)`: index of the first occurrence, if any. -/
def pyFind (ch : Char) : List Char → Option Nat
  | [] => none
  | c :: cs => if c = ch then some 0 else (pyFind ch cs).map (· + 1)

/-- Python `str.replace(old, new)` with explicit fuel (the wrapper below
fixes it at the string length plus one, which always suffices).  The
`old = []` branch reproduces Python's empty-pattern behaviour
(`"ab".replace("", "X") = "XaXbX"`). -/
def replaceAllF (old new : List Char) : Nat → List Char → List Char
  | 0, s => s
  | fuel + 1, s =>
    if old = [] then new ++ s.flatMap (fun c => c :: new)
    else
      match s with
      | [] => []
      | c :: cs =>
        if old.isPrefixOf (c :: cs) then
          new ++ replaceAllF old new fuel ((c :: cs).drop old.length)
        else c :: replaceAllF old new fuel cs

/-- Python `str.replace(old, new)`. -/
def replaceAll (old new s : List Char) : List Char :=
  replaceAllF old new (s.length + 1) s

/-- Python `str.split(",")`: always returns at least one (possibly empty)
piece. -/
def splitOnComma : List Char → List (List Char)
  | [] => [[]]
  | c :: cs =>
    match splitOnComma cs with
    | [] => [[c]]
    | p :: ps => if c = ',' then [] :: p :: ps else (c :: p) :: ps

/-- Python `", ".join(ws)`. -/
def joinCS : List (List Char) → List Char
  | [] => []
  | [w] => w
  | w :: ws => w ++ ',' :: ' ' :: joinCS ws

/-- Python `sorted` on strings: ascending lexicographic order by code
point (the `List Char` linear order). -/
def pySort (ws : List (List Char)) : List (List Char) :=
  ws.insertionSort (· ≤ ·)

/-- Match the literal `lit` at the head of `s`, returning the rest. -/
def stripLit : List Char → List Char → Option (List Char)
  | [], s => some s
  | _ :: _, [] => none
  | l :: ls, c :: cs => if c = l then stripLit ls cs else none

/-- Match `type\s*:\s*ignore` at the head of `s`, returning the rest.
Each greedy `\s*` is immediately followed by a non-whitespace literal, so
taking the maximal whitespace run is exact. -/
def matchTIHead (s : List Char) : Option (List Char) := do
  let s1 ← stripLit "type".data s
  let s2 ← stripLit ":".data (s1.dropWhile pyIsSpace)
  stripLit "ignore".data (s2.dropWhile pyIsSpace)

/-- Match `\[[a-z, \-]+\]` at the head of `s`, returning the bracket
content and the rest after `]`.  The greedy class run is exact because
`]` is not a class character. -/
def bracketAttempt (s : List Char) : Option (List Char × List Char) :=
  match s with
  | c :: s1 =>
    if c = '[' then
      if s1.takeWhile classChar = [] then none
      else
        match s1.dropWhile classChar with
        | ']' :: s2 => some (s1.takeWhile classChar, s2)
        | _ => none
    else none
  | [] => none

/-- Match `editing.py`'s `old_type_ignore_re`, i.e.
`type\s*:\s*ignore\[(?P<error_code>[a-z, \-]+)\]` (bracket mandatory), at
the head of `s`: returns the code group and the rest after the match. -/
def matchTIBr (s : List Char) : Option (List Char × List Char) :=
  (matchTIHead s).bind bracketAttempt

/-- Match `type\s*:\s*ignore(\[(?P<error_codes>[a-z, \-]+)\])?` (bracket
optional) at the head of `s`: returns the optional code group and the rest
after the match.  When the bracket fails the optional group backtracks to
empty and the match ends after `ignore`. -/
def matchTI (s : List Char) : Option (Option (List Char) × List Char) :=
  (matchTIHead s).map (fun s5 =>
    match bracketAttempt s5 with
    | some (codes, s8) => (some codes, s8)
    | none => (none, s5))

/-- Match `type\s*:\s*ignore\s*(\[\])?` at the head of `s` (the deletion
pattern of `format_type_ignore_comment`), returning the rest after the
match. -/
def matchTIE (s : List Char) : Option (List Char) :=
  (matchTIHead s).map (fun s5 =>
    match s5.dropWhile pyIsSpace with
    | '[' :: ']' :: s7 => s7
    | s6 => s6)

/-- `old_type_ignore_re.search(comment)`: the code group of the leftmost
match, if any. -/
def searchTIBr : List Char → Option (List Char)
  | [] => none
  | c :: cs =>
    match matchTIBr (c :: cs) with
    | some (codes, _) => some codes
    | none => searchTIBr cs

/-- `type_ignore_re.search(comment)` of `format_type_ignore_comment`: the
optional code group of the leftmost match, if any. -/
def searchTI : List Char → Option (Option (List Char))
  | [] => none
  | c :: cs =>
    match matchTI (c :: cs) with
    | some (g, _) => some g
    | none => searchTI cs

/-- `old_type_ignore_re.sub("", comment)` with fuel: delete every
(leftmost-scanning, non-overlapping) match of the mandatory-bracket
pattern. -/
def subAllTIBrF : Nat → List Char → List Char
  | 0, s => s
  | _ + 1, [] => []
  | fuel + 1, c :: cs =>
    match matchTIBr (c :: cs) with
    | some (_, rest) => subAllTIBrF fuel rest
    | none => c :: subAllTIBrF fuel cs

/-- `old_type_ignore_re.sub("", comment)`. -/
def subAllTIBr (s : List Char) : List Char :=
  subAllTIBrF (s.length + 1) s

/-- `re.sub(r"type\s*:\s*ignore(\[[a-z, \-]+\])?", "", comment)` with
fuel (the pattern of `remove_unused_type_ignore`). -/
def subAllTIF : Nat → List Char → List Char
  | 0, s => s
  | _ + 1, [] => []
  | fuel + 1, c :: cs =>
    match matchTI (c :: cs) with
    | some (_, rest) => subAllTIF fuel rest
    | none => c :: subAllTIF fuel cs

/-- `re.sub(r"type\s*:\s*ignore(\[[a-z, \-]+\])?", "", comment)`. -/
def subAllTI (s : List Char) : List Char :=
  subAllTIF (s.length + 1) s

/-- `re.sub(r"type\s*:\s*ignore\s*(\[\])?", "", comment)` with fuel
(the deletion step of `format_type_ignore_comment`). -/
def subAllTIEF : Nat → List Char → List Char
  | 0, s => s
  | _ + 1, [] => []
  | fuel + 1, c :: cs =>
    match matchTIE (c :: cs) with
    | some rest => subAllTIEF fuel rest
    | none => c :: subAllTIEF fuel cs

/-- `re.sub(r"type\s*:\s*ignore\s*(\[\])?", "", comment)`. -/
def subAllTIE (s : List Char) : List Char :=
  subAllTIEF (s.length + 1) s

/-- `add_type_ignore_comment` from `editing.py`.  The Python `set` of
existing codes is modelled as a deduplicated list: its iteration order is
unspecified in Python, and every use here (membership filtering followed by
`sorted`) is order-insensitive. -/
def add_type_ignore_comment (comment : List Char)
    (error_codes : List (List Char)) : List Char :=
  match searchTIBr comment with
  | some codes =>
    let old_error_codes := (splitOnComma (removeSpaces codes)).dedup
    let ec := error_codes ++
      old_error_codes.filter (fun e => !(decide (e ∈ error_codes)))
    let comment1 := subAllTIBr comment
    let tail :=
      if hasVisible comment1 then ' ' :: '#' :: ' ' :: lstripHashSpace comment1
      else []
    "# type: ignore[".data ++ joinCS (pySort ec) ++ ']' :: tail
  | none =>
    let tail :=
      if comment = [] then []
      else ' ' :: '#' :: ' ' :: lstripHashSpace comment
    "# type: ignore[".data ++ joinCS (pySort error_codes) ++ ']' :: tail

/-- `format_type_ignore_comment` from `editing.py`, with fuel standing in
for the Python self-recursion (taken when the bracketed list prunes to
nothing).  Each recursive call deletes at least one occurrence of the
nonempty matched code string, so the wrapper's fuel of length + 1 always
suffices. -/
def format_type_ignore_comment_fuel : Nat → List Char → List Char
  | 0, comment => comment
  | fuel + 1, comment =>
    match searchTI comment with
    | some (some codes) =>
      let pruned := ((splitOnComma codes).map pyStrip).filter (fun w => !(w = []))
      let formatted := replaceAll codes (joinCS pruned) comment
      if pruned = [] then format_type_ignore_comment_fuel fuel formatted
      else formatted
    | _ =>
      let formatted := subAllTIE comment
      if hasVisible formatted then formatted else []

/-- `format_type_ignore_comment` from `editing.py`. -/
def format_type_ignore_comment (comment : List Char) : List Char :=
  format_type_ignore_comment_fuel (comment.length + 1) comment

/-- `remove_unused_type_ignore` from `editing.py`. -/
def remove_unused_type_ignore (comment : List Char)
    (codes_to_remove : List (List Char)) : List Char :=
  if codes_to_remove = [] then subAllTI comment
  else codes_to_remove.foldl (fun acc code => replaceAll code [] acc) comment

/-- Python `line.removesuffix("\n")`. -/
def removeSuffixNl (s : List Char) : List Char :=
  if s.getLast? = some '\n' then s.dropLast else s

/-- `silence_errors` from `__main__.py`, applied to the file's line buffer
(each entry one line, trailing newline included, as `readlines` yields).
`line_no` is 1-indexed; the claims exercise only in-range lines, where
`List.getD`/`List.set` agree with Python indexing. -/
def silence_errors (lines : List (List Char)) (line_no : Nat)
    (error_code description : List Char) : List (List Char) :=
  let line := removeSuffixNl (lines.getD (line_no - 1) [])
  let comment := "# type: ignore[".data ++ error_code ++ "]  # ".data ++
    description
  lines.set (line_no - 1) (line ++ ' ' :: ' ' :: comment ++ ['\n'])

/-- `split_code_and_comment` from `utils.py`.  Tokenizing the single line
with the standard library's `tokenize` module is external to this
repository and is modelled by the oracle argument `tok`: `some cols` gives
the start columns of the line's COMMENT tokens in order, and `none` models
`tokenize.TokenError`, which the Python code catches and degrades to a
scan for the first literal `#`. -/
def split_code_and_comment (line : List Char) (tok : Option (List Nat)) :
    List Char × List Char :=
  match tok with
  | some [] => (rstrip line, [])
  | some (c :: _) => (rstrip (line.take c), line.drop c)
  | none =>
    match pyFind '#' line with
    | some i => (rstrip (line.take i), line.drop i)
    | none => (rstrip line, [])

/-- The set of codes already present in a comment's first type-ignore
annotation, as `add_type_ignore_comment` computes it: Python's
`set(match.group("error_code").replace(" ", "").split(","))`, modelled as
a deduplicated list. -/
def oldSet (comment : List Char) : List (List Char) :=
  match searchTIBr comment with
  | some codes => (splitOnComma (removeSpaces codes)).dedup
  | none => []

/-- The trailing free-text part that `add_type_ignore_comment` appends
after the rebuilt annotation (independent of the codes being added). -/
def addTail (comment : List Char) : List Char :=
  match searchTIBr comment with
  | some _ =>
    if hasVisible (subAllTIBr comment) then
      ' ' :: '#' :: ' ' :: lstripHashSpace (subAllTIBr comment)
    else []
  | none =>
    if comment = [] then []
    else ' ' :: '#' :: ' ' :: lstripHashSpace comment

/-- If no region is skipped as a closing line and some region contains the
error's position (known column) or overlaps its line (unknown column), the
resolver loop hits an early `return -1`, whatever has been accumulated. -/
theorem fselLoop_eq_none (e : MypyError) :
    ∀ (rs : List UnsilenceableRegion) (acc : Option (Int × Int)),
    (∀ r ∈ rs, isEndSkip e r = false) →
    (∃ r ∈ rs, colUnknownOverlap e r = true ∨ colKnownInSpan e r = true) →
    fselLoop e rs acc = none := by
  intro rs
  induction rs with
  | nil => intro acc _ hex; simp at hex
  | cons r rs ih =>
    intro acc hskip hex
    have hs : isEndSkip e r = false := hskip r (List.mem_cons_self r rs)
    have hskip' : ∀ r' ∈ rs, isEndSkip e r' = false := by
      intro r' hr'; exact hskip r' (List.mem_cons_of_mem r hr')
    rcases hex with ⟨r0, hr0mem, hr0⟩
    rcases List.mem_cons.mp hr0mem with rfl | hr0tail
    · rcases hr0 with h | h
      · simp [fselLoop, hs, h]
      · cases hcu : colUnknownOverlap e r0
        · simp [fselLoop, hs, hcu, h]
        · simp [fselLoop, hs, hcu]
    · have hex' : ∃ r' ∈ rs, colUnknownOverlap e r' = true ∨
          colKnownInSpan e r' = true := ⟨r0, hr0tail, hr0⟩
      cases hcu : colUnknownOverlap e r
      · cases hck : colKnownInSpan e r
        · cases hsr : isStartRedirect e r
          · simp [fselLoop, hs, hcu, hck, hsr, ih _ hskip' hex']
          · simp [fselLoop, hs, hcu, hck, hsr, ih _ hskip' hex']
        · simp [fselLoop, hs, hcu, hck]
      · simp [fselLoop, hs, hcu]

/-- A redirect produced by the resolver loop comes from the accumulator or
from a region whose start line matches the current error line. -/
theorem fselLoop_redirect_mem (e : MypyError) :
    ∀ (rs : List UnsilenceableRegion) (acc : Option (Int × Int))
      (p : Int × Int), fselLoop e rs acc = some (some p) →
    acc = some p ∨ ∃ r ∈ rs, isStartRedirect e r = true ∧
      p = (r.stop.1, r.stop.2) := by
  intro rs
  induction rs with
  | nil =>
    intro acc p h
    simp [fselLoop] at h
    exact Or.inl (by simp [h])
  | cons r rs ih =>
    intro acc p h
    by_cases hs : isEndSkip e r = true
    · simp [fselLoop, hs] at h
      rcases ih acc p h with h' | ⟨r', hm, hr'⟩
      · exact Or.inl h'
      · exact Or.inr ⟨r', List.mem_cons_of_mem r hm, hr'⟩
    · rw [Bool.not_eq_true] at hs
      by_cases hcu : colUnknownOverlap e r = true
      · simp [fselLoop, hs, hcu] at h
      · rw [Bool.not_eq_true] at hcu
        by_cases hck : colKnownInSpan e r = true
        · simp [fselLoop, hs, hcu, hck] at h
        · rw [Bool.not_eq_true] at hck
          by_cases hsr : isStartRedirect e r = true
          · simp [fselLoop, hs, hcu, hck, hsr] at h
            rcases ih _ p h with h' | ⟨r', hm, hr'⟩
            · exact Or.inr ⟨r, List.mem_cons_self r rs,
                hsr, by simpa using h'.symm⟩
            · exact Or.inr ⟨r', List.mem_cons_of_mem r hm, hr'⟩
          · rw [Bool.not_eq_true] at hsr
            simp [fselLoop, hs, hcu, hck, hsr] at h
            rcases ih acc p h with h' | ⟨r', hm, hr'⟩
            · exact Or.inl h'
            · exact Or.inr ⟨r', List.mem_cons_of_mem r hm, hr'⟩

/-- Strict `countP` decrease: a pointwise implication `q → p` together
with one element satisfying `p` but not `q`. -/
theorem countP_lt_countP {α : Type} (p q : α → Bool) :
    ∀ (l : List α) (x : α), x ∈ l → p x = true → q x = false →
    (∀ y ∈ l, q y = true → p y = true) →
    l.countP q < l.countP p := by
  intro l
  induction l with
  | nil => intro x hx; simp at hx
  | cons a l ih =>
    intro x hx hpx hqx hmono
    rcases List.mem_cons.mp hx with rfl | hxl
    · have hle : l.countP q ≤ l.countP p := by
        apply List.countP_mono_left
        intro y hy; exact hmono y (List.mem_cons_of_mem _ hy)
      simp [List.countP_cons, hpx, hqx]
      omega
    · have hlt : l.countP q < l.countP p :=
        ih x hxl hpx hqx (fun y hy => hmono y (List.mem_cons_of_mem _ hy))
      have : (if q a = true then 1 else 0) ≤ (if p a = true then 1 else 0) := by
        by_cases hqa : q a = true
        · simp [hqa, hmono a (List.mem_cons_self a l) hqa]
        · simp [hqa]
      simp [List.countP_cons]
      omega

/-- The resolver reaches a result (never exhausts its fuel) whenever the
fuel exceeds the number of regions ending past the error's line, provided
every region ends no earlier than it starts. -/
theorem find_safe_end_line_fuel_isSome (rs : List UnsilenceableRegion)
    (hwf : ∀ r ∈ rs, r.start.1 ≤ r.stop.1) :
    ∀ (fuel : Nat) (e : MypyError),
    rs.countP (fun r => decide (e.line_no < r.stop.1)) < fuel →
    (find_safe_end_line_fuel fuel e rs).isSome = true := by
  intro fuel
  induction fuel with
  | zero => intro e h; omega
  | succ fuel ih =>
    intro e hcount
    match hloop : fselLoop e rs none with
    | none => simp [find_safe_end_line_fuel, hloop]
    | some none => simp [find_safe_end_line_fuel, hloop]
    | some (some (l, c)) =>
      rcases fselLoop_redirect_mem e rs none (l, c) hloop with h | ⟨r, hmem, hsr, hp⟩
      · exact absurd h (by simp)
      · have hline : e.line_no = r.start.1 ∧ ¬ r.start.1 = r.stop.1 := by
          have := hsr
          simp [isStartRedirect] at this
          exact this
        have hstop : l = r.stop.1 := by
          have := congrArg Prod.fst hp; simpa using this
        have hlt : e.line_no < l := by
          have h1 := hwf r hmem
          omega
        have hnew : rs.countP (fun r' => decide (l < r'.stop.1)) < fuel := by
          have hdec : rs.countP (fun r' => decide (l < r'.stop.1)) <
              rs.countP (fun r' => decide (e.line_no < r'.stop.1)) := by
            apply countP_lt_countP _ _ rs r hmem
            · simp; omega
            · simp; omega
            · intro y _ hq
              simp at hq ⊢
              omega
          omega
        simp only [find_safe_end_line_fuel, hloop]
        exact ih { e with line_no := l, col_offset := some c } hnew

/-- The wrapper fuel `rs.length + 1` always suffices for well-formed
region lists. -/
theorem find_safe_end_line_isSome (e : MypyError)
    (rs : List UnsilenceableRegion)
    (hwf : ∀ r ∈ rs, r.start.1 ≤ r.stop.1) :
    (find_safe_end_line e rs).isSome = true := by
  apply find_safe_end_line_fuel_isSome rs hwf
  have := List.countP_le_length
    (l := rs) (p := fun r => decide (e.line_no < r.stop.1))
  omega

/-- `correct_line_numbers` as a declarative partition: the silenceable
list is the input filtered to resolvable errors, each with only its
`line_no` replaced; the unsilenceable list is the input filtered to the
sentinel cases. -/
theorem correct_line_numbers_eq (regions : List UnsilenceableRegion)
    (hwf : ∀ r ∈ regions, r.start.1 ≤ r.stop.1) :
    ∀ errors : List MypyError,
    correct_line_numbers regions errors =
      some (errors.filterMap (fun e =>
              match find_safe_end_line e regions with
              | some el => if el = -1 then none
                           else some { e with line_no := el }
              | none => none),
            errors.filter (fun e =>
              decide (find_safe_end_line e regions = some (-1)))) := by
  intro errors
  induction errors with
  | nil => rfl
  | cons e es ih =>
    rcases Option.isSome_iff_exists.mp (find_safe_end_line_isSome e regions hwf)
      with ⟨el, hel⟩
    by_cases hneg : el = -1
    · subst hneg
      simp [correct_line_numbers, hel, ih, List.filterMap_cons, List.filter_cons]
    · simp [correct_line_numbers, hel, ih, List.filterMap_cons, List.filter_cons,
        hneg]

/-- C1 counterexample: with the single multiline-string region spanning
lines 2-4 (opening at column 0), the error at line 2, column 5 sits inside
the string's span, so `find_safe_end_line` returns the sentinel -1, not
line 4 as the claim states. -/
theorem C1_counterexample :
    find_safe_end_line ⟨"f".data, 2, some 5, "m".data, "c".data⟩
        [⟨(2, 0), (4, 3)⟩] = some (-1) ∧
      ¬ find_safe_end_line ⟨"f".data, 2, some 5, "m".data, "c".data⟩
          [⟨(2, 0), (4, 3)⟩] = some 4 := by decide

/-- C1 (amended): for an error on the opening line of a multiline-string
region whose known column precedes the region's start column (so the
position is outside the region's span), with that single region,
`find_safe_end_line` returns the region's end line. -/
theorem C1_amended_prop (fn msg code : List Char)
    (l1 c1 l2 c2 col : Int) (hml : l1 ≠ l2) (hcol : col < c1) :
    find_safe_end_line ⟨fn, l1, some col, msg, code⟩ [⟨(l1, c1), (l2, c2)⟩] =
      some l2 := by
  have h12 : decide (l1 = l2) = false := decide_eq_false hml
  have hc : decide (c1 ≤ col) = false := decide_eq_false (not_le.mpr hcol)
  have hl : decide (l1 < l1) = false := decide_eq_false (lt_irrefl l1)
  simp [find_safe_end_line, find_safe_end_line_fuel, fselLoop, isEndSkip,
    colUnknownOverlap, colKnownInSpan, isStartRedirect, pairLe, h12, hc, hl]

/-- C1 witness: an error at line 2, column 1, before a string opening at
column 2 and closing at line 4, resolves to line 4. -/
theorem C1_witness :
    find_safe_end_line ⟨"f".data, 2, some 1, "m".data, "c".data⟩
      [⟨(2, 2), (4, 7)⟩] = some 4 :=
  C1_amended_prop "f".data "m".data "c".data 2 2 4 7 1 (by decide) (by decide)

/-- C4: if the error's position (known column) or line (unknown column)
falls within some region's span and the error's line is not the closing
line of any multiline-string region in the collection, the resolver
returns the sentinel -1. -/
theorem C4_prop (e : MypyError) (rs : List UnsilenceableRegion)
    (hin : ∃ r ∈ rs, colUnknownOverlap e r = true ∨ colKnownInSpan e r = true)
    (hnoskip : ∀ r ∈ rs, isEndSkip e r = false) :
    find_safe_end_line e rs = some (-1) := by
  have h := fselLoop_eq_none e rs none hnoskip hin
  simp [find_safe_end_line, find_safe_end_line_fuel, h]

/-- C4 witness: an error with known position (3, 10) inside the
single-line continuation region (3,0)-(3,40) resolves to -1. -/
theorem C4_witness :
    find_safe_end_line ⟨"f".data, 3, some 10, "m".data, "c".data⟩
      [⟨(3, 0), (3, 40)⟩] = some (-1) :=
  C4_prop _ _ (by decide) (by decide)

/-- C5: the resolver terminates (its fuel of `regions.length + 1` is never
exhausted) for every error and every region list in which no region's end
line precedes its start line, as `find_unsilenceable_regions` guarantees:
every self-redirection strictly increases the probe line. -/
theorem C5_prop (e : MypyError) (rs : List UnsilenceableRegion)
    (hwf : ∀ r ∈ rs, r.start.1 ≤ r.stop.1) :
    (find_safe_end_line e rs).isSome = true :=
  find_safe_end_line_isSome e rs hwf

/-- C5 witness: termination on a two-region list with an unknown-column
error. -/
theorem C5_witness :
    (find_safe_end_line ⟨"f".data, 1, none, "m".data, "c".data⟩
      [⟨(2, 0), (4, 3)⟩, ⟨(6, 0), (6, 10)⟩]).isSome = true :=
  C5_prop _ _ (by decide)

/-- C10: `correct_line_numbers` partitions its input in order: each error
goes to the silenceable list (with only `line_no` replaced by the resolved
line; `filename`, `col_offset`, `message` and `error_code` unchanged) when
the resolver yields a line, and to the unsilenceable list unchanged when
the resolver yields -1. -/
theorem C10_prop (regions : List UnsilenceableRegion)
    (errors : List MypyError)
    (hwf : ∀ r ∈ regions, r.start.1 ≤ r.stop.1) :
    correct_line_numbers regions errors =
      some (errors.filterMap (fun e =>
              match find_safe_end_line e regions with
              | some el => if el = -1 then none
                           else some { e with line_no := el }
              | none => none),
            errors.filter (fun e =>
              decide (find_safe_end_line e regions = some (-1)))) :=
  correct_line_numbers_eq regions hwf errors

/-- C10 witness: a two-error input splits into one relocated silenceable
error (column preserved) and one unchanged unsilenceable error. -/
theorem C10_witness :
    correct_line_numbers [⟨(2, 2), (4, 3)⟩]
        [⟨"f".data, 2, some 0, "m".data, "c".data⟩,
         ⟨"f".data, 2, some 5, "m".data, "c".data⟩] =
      some ([⟨"f".data, 4, some 0, "m".data, "c".data⟩],
            [⟨"f".data, 2, some 5, "m".data, "c".data⟩]) := by
  rw [C10_prop _ _ (by decide)]
  decide

/-- `takeWhile` over a satisfied block followed by a failing element. -/
theorem takeWhile_block (p : Char → Bool) :
    ∀ (xs : List Char) (y : Char) (r : List Char),
    (∀ c ∈ xs, p c = true) → p y = false →
    (xs ++ y :: r).takeWhile p = xs := by
  intro xs
  induction xs with
  | nil => intro y r _ hy; simp [hy]
  | cons x xs ih =>
    intro y r hall hy
    have hx : p x = true := hall x (List.mem_cons_self x xs)
    simp only [List.cons_append, List.takeWhile_cons_of_pos hx]
    rw [ih y r (fun c hc => hall c (List.mem_cons_of_mem x hc)) hy]

/-- `dropWhile` over a satisfied block followed by a failing element. -/
theorem dropWhile_block (p : Char → Bool) :
    ∀ (xs : List Char) (y : Char) (r : List Char),
    (∀ c ∈ xs, p c = true) → p y = false →
    (xs ++ y :: r).dropWhile p = y :: r := by
  intro xs
  induction xs with
  | nil => intro y r _ hy; simp [hy]
  | cons x xs ih =>
    intro y r hall hy
    have hx : p x = true := hall x (List.mem_cons_self x xs)
    simp only [List.cons_append, List.dropWhile_cons_of_pos hx]
    exact ih y r (fun c hc => hall c (List.mem_cons_of_mem x hc)) hy

/-- The bracket part `\[[a-z, \-]+\]` consumes exactly `codes` when the
content is a nonempty block of class characters closed by `]`. -/
theorem bracketAttempt_at (codes rest : List Char) (hne : codes ≠ [])
    (hclass : ∀ c ∈ codes, classChar c = true) :
    bracketAttempt ('[' :: (codes ++ ']' :: rest)) = some (codes, rest) := by
  have htake := takeWhile_block classChar codes ']' rest hclass (by decide)
  have hdrop := dropWhile_block classChar codes ']' rest hclass (by decide)
  show (if (codes ++ ']' :: rest).takeWhile classChar = [] then none
        else match (codes ++ ']' :: rest).dropWhile classChar with
             | ']' :: s2 => some ((codes ++ ']' :: rest).takeWhile classChar, s2)
             | _ => none) = some (codes, rest)
  rw [htake, hdrop, if_neg hne]
  rfl

/-- The mandatory-bracket pattern matches at the head of
`type: ignore[codes]rest` with group exactly `codes`, for any nonempty
class-character `codes`. -/
theorem matchTIBr_at (codes rest : List Char) (hne : codes ≠ [])
    (hclass : ∀ c ∈ codes, classChar c = true) :
    matchTIBr ("type: ignore[".data ++ codes ++ ']' :: rest) =
      some (codes, rest) := by
  have hstep : matchTIBr ("type: ignore[".data ++ codes ++ ']' :: rest) =
      bracketAttempt ('[' :: (codes ++ ']' :: rest)) := rfl
  rw [hstep, bracketAttempt_at codes rest hne hclass]

/-- The optional-bracket pattern matches at the head of
`type: ignore[codes]rest` with group exactly `codes`. -/
theorem matchTI_at (codes rest : List Char) (hne : codes ≠ [])
    (hclass : ∀ c ∈ codes, classChar c = true) :
    matchTI ("type: ignore[".data ++ codes ++ ']' :: rest) =
      some (some codes, rest) := by
  have hstep : matchTI ("type: ignore[".data ++ codes ++ ']' :: rest) =
      some (match bracketAttempt ('[' :: (codes ++ ']' :: rest)) with
            | some (cs, s8) => (some cs, s8)
            | none => (none, '[' :: (codes ++ ']' :: rest))) := rfl
  rw [hstep, bracketAttempt_at codes rest hne hclass]

/-- Leftmost search for the mandatory-bracket pattern on a canonical
annotation `# type: ignore[codes]rest` yields exactly `codes`, whatever
follows the closing bracket. -/
theorem searchTIBr_canonical (codes rest : List Char) (hne : codes ≠ [])
    (hclass : ∀ c ∈ codes, classChar c = true) :
    searchTIBr ("# type: ignore[".data ++ codes ++ ']' :: rest) =
      some codes := by
  have hstep : searchTIBr ("# type: ignore[".data ++ codes ++ ']' :: rest) =
      match matchTIBr ("type: ignore[".data ++ codes ++ ']' :: rest) with
      | some (cs, _) => some cs
      | none => searchTIBr ("ype: ignore[".data ++ codes ++ ']' :: rest)
      := rfl
  rw [hstep, matchTIBr_at codes rest hne hclass]

/-- If the optional-bracket pattern has no match anywhere in `s`, the
substitution pass returns `s` unchanged at every fuel. -/
theorem subAllTIF_eq_self :
    ∀ (fuel : Nat) (s : List Char), searchTI s = none →
    subAllTIF fuel s = s := by
  intro fuel
  induction fuel with
  | zero => intro s _; rfl
  | succ fuel ih =>
    intro s hs
    match s with
    | [] => rfl
    | c :: cs =>
      have hm : matchTI (c :: cs) = none := by
        cases hm : matchTI (c :: cs) with
        | none => rfl
        | some g => simp [searchTI, hm] at hs
      have hs' : searchTI cs = none := by
        simpa [searchTI, hm] using hs
      simp [subAllTIF, hm, ih cs hs']

/-- C2: the File Mutator as implemented.  `silence_errors` on a line that
already carries `# type: ignore[arg-type]` appends a second, duplicate
`# type: ignore[return-value]` marker instead of merging, even though
`add_type_ignore_comment` (in `editing.py`, never called from
`__main__.py`) produces exactly the merged annotation the claim
describes. -/
theorem C2_code_evaluation :
    silence_errors ["y = f()  # type: ignore[arg-type]\n".data] 1
        "return-value".data "msg".data =
      [("y = f()  # type: ignore[arg-type]  " ++
        "# type: ignore[return-value]  # msg\n").data] ∧
    (¬ silence_errors ["y = f()  # type: ignore[arg-type]\n".data] 1
        "return-value".data "msg".data =
      ["y = f()  # type: ignore[arg-type, return-value]\n".data]) ∧
    add_type_ignore_comment "# type: ignore[arg-type]".data
        ["return-value".data] =
      "# type: ignore[arg-type, return-value]".data := by decide

/-- C3 counterexample: removing with an empty set from
`# type: ignore[arg-type]  # keep me` leaves the original leading marker
and its spacing in place, producing `#   # keep me`, not the claimed
`# keep me`. -/
theorem C3_counterexample :
    remove_unused_type_ignore "# type: ignore[arg-type]  # keep me".data []
        = "#   # keep me".data ∧
      ¬ remove_unused_type_ignore
          "# type: ignore[arg-type]  # keep me".data [] =
        "# keep me".data := by decide

/-- C3 (amended): with an empty removal set the whole
`type: ignore[...]` text (keyword and brackets) is deleted, but the
surrounding comment markers and whitespace are left untouched: a comment
`# type: ignore[codes]rest` (pattern-free `rest`) becomes `# rest`. -/
theorem C3_amended_prop (codes rest : List Char) (hne : codes ≠ [])
    (hclass : ∀ c ∈ codes, classChar c = true)
    (hrest : searchTI rest = none) :
    remove_unused_type_ignore
        ("# type: ignore[".data ++ codes ++ ']' :: rest) [] =
      "# ".data ++ rest := by
  have h0 : ("# type: ignore[".data ++ codes ++ ']' :: rest) =
      '#' :: ' ' :: ("type: ignore[".data ++ codes ++ ']' :: rest) := rfl
  have hlen : ('#' :: ' ' ::
      ("type: ignore[".data ++ codes ++ ']' :: rest)).length + 1 =
      (codes.length + rest.length + 14) + 3 := by
    simp [List.length_append]
    omega
  rw [remove_unused_type_ignore, if_pos rfl, subAllTI, h0, hlen]
  have h3 := matchTI_at codes rest hne hclass
  rw [show subAllTIF ((codes.length + rest.length + 14) + 3)
        ('#' :: ' ' :: ("type: ignore[".data ++ codes ++ ']' :: rest)) =
        '#' :: ' ' ::
          (match matchTI ("type: ignore[".data ++ codes ++ ']' :: rest) with
           | some (g, r) => subAllTIF (codes.length + rest.length + 14) r
           | none => 't' :: subAllTIF (codes.length + rest.length + 14)
               ("ype: ignore[".data ++ codes ++ ']' :: rest)) from rfl]
  rw [h3]
  show '#' :: ' ' :: subAllTIF (codes.length + rest.length + 14) rest =
    "# ".data ++ rest
  rw [subAllTIF_eq_self _ rest hrest]
  rfl

/-- C3 witness: the amended statement at the spec's own example. -/
theorem C3_witness :
    remove_unused_type_ignore
        ("# type: ignore[".data ++ "arg-type".data ++ ']' ::
          "  # keep me".data) [] =
      "# ".data ++ "  # keep me".data :=
  C3_amended_prop "arg-type".data "  # keep me".data (by decide)
    (by decide) (by decide)

/-- Replacing a pattern by itself is the identity, at every fuel. -/
theorem replaceAllF_self (s : List Char) :
    ∀ (fuel : Nat) (x : List Char), replaceAllF s s fuel x = x := by
  intro fuel
  induction fuel with
  | zero => intro x; rfl
  | succ fuel ih =>
    intro x
    by_cases hs : s = []
    · subst hs
      simp [replaceAllF]
    · match x with
      | [] => simp [replaceAllF, hs]
      | c :: cs =>
        by_cases hpre : s.isPrefixOf (c :: cs)
        · have hsplit : s ++ (c :: cs).drop s.length = c :: cs := by
            rw [List.isPrefixOf_iff_prefix] at hpre
            rcases hpre with ⟨t, ht⟩
            rw [← ht]
            simp
          simp only [replaceAllF, if_neg hs, hpre, if_pos]
          rw [ih, hsplit]
        · simp only [replaceAllF, if_neg hs]
          rw [if_neg hpre, ih]

/-- `str.replace(old, old)` is the identity. -/
theorem replaceAll_self (s x : List Char) : replaceAll s s x = x :=
  replaceAllF_self s (x.length + 1) x

/-- C6 counterexample: `format_type_ignore_comment` is not idempotent.
On `typ e: ignore[a ,b] type: ignore[ e]` the first pass rewrites the
matched codes ` e` to `e` at every occurrence, turning the leading
`typ e:` into a fresh, earlier `type:` annotation whose code list `a ,b`
is still non-canonical; the second pass then changes the string again. -/
theorem C6_counterexample :
    ¬ format_type_ignore_comment
        (format_type_ignore_comment
          "typ e: ignore[a ,b] type: ignore[ e]".data) =
      format_type_ignore_comment "typ e: ignore[a ,b] type: ignore[ e]".data
    := by decide

/-- C6 (amended): `format_type_ignore_comment` is idempotent on every
comment whose leftmost type-ignore match carries a bracketed code list
already in canonical form (pruning it reproduces it): such comments are
fixed points, so a second application changes nothing.  Full idempotence
fails (see the counterexample): rewriting the code list rewrites every
textual occurrence of it, which can create an earlier match. -/
theorem C6_amended_prop (x codes : List Char)
    (hsearch : searchTI x = some (some codes)) (hne : codes ≠ [])
    (hcanon : joinCS (((splitOnComma codes).map pyStrip).filter
        (fun w => !(w = []))) = codes) :
    format_type_ignore_comment x = x ∧
      format_type_ignore_comment (format_type_ignore_comment x) =
        format_type_ignore_comment x := by
  have hfix : format_type_ignore_comment x = x := by
    rw [format_type_ignore_comment]
    rw [show format_type_ignore_comment_fuel (x.length + 1) x =
        (match searchTI x with
         | some (some codes) =>
           let pruned := ((splitOnComma codes).map pyStrip).filter
             (fun w => !(w = []))
           let formatted := replaceAll codes (joinCS pruned) x
           if pruned = [] then format_type_ignore_comment_fuel x.length
             formatted
           else formatted
         | _ =>
           let formatted := subAllTIE x
           if hasVisible formatted then formatted else []) from rfl]
    rw [hsearch]
    have hpr : ¬ ((splitOnComma codes).map pyStrip).filter
        (fun w => !(w = [])) = [] := by
      intro hempty
      rw [hempty] at hcanon
      exact hne (by simpa [joinCS] using hcanon.symm)
    simp only [if_neg hpr]
    rw [hcanon, replaceAll_self]
  exact ⟨hfix, by rw [hfix, hfix]⟩

/-- C6 witness: a canonical annotation with free text is a fixed point. -/
theorem C6_witness :
    format_type_ignore_comment "# type: ignore[a, b]  # note".data =
        "# type: ignore[a, b]  # note".data ∧
      format_type_ignore_comment
          (format_type_ignore_comment "# type: ignore[a, b]  # note".data) =
        format_type_ignore_comment "# type: ignore[a, b]  # note".data :=
  C6_amended_prop "# type: ignore[a, b]  # note".data "a, b".data
    (by decide) (by decide) (by decide)

/-- Every string splits as its `rstrip` followed by trailing
whitespace. -/
theorem rstrip_append (s : List Char) :
    ∃ w, (∀ c ∈ w, pyIsSpace c = true) ∧ rstrip s ++ w = s := by
  refine ⟨(s.reverse.takeWhile pyIsSpace).reverse, ?_, ?_⟩
  · intro c hc
    rw [List.mem_reverse] at hc
    exact List.mem_takeWhile_imp hc
  · rw [rstrip, ← List.reverse_append, List.takeWhile_append_dropWhile,
      List.reverse_reverse]

/-- C8: the Split operation.  With no comment token on the line it
returns the right-stripped line and an empty comment; with a comment
token starting at column `c`, the code part, the stripped whitespace and
the comment part reassemble to the original line. -/
theorem C8_prop (line : List Char) (c : Nat) (cols : List Nat) :
    split_code_and_comment line (some []) = (rstrip line, []) ∧
      ∃ ws, (∀ ch ∈ ws, pyIsSpace ch = true) ∧
        (split_code_and_comment line (some (c :: cols))).1 ++ ws ++
          (split_code_and_comment line (some (c :: cols))).2 = line := by
  refine ⟨rfl, ?_⟩
  rcases rstrip_append (line.take c) with ⟨w, hw, hsplit⟩
  refine ⟨w, hw, ?_⟩
  show rstrip (line.take c) ++ w ++ line.drop c = line
  rw [List.append_assoc, ← List.append_assoc (rstrip (line.take c)), hsplit]
  · exact List.take_append_drop c line

/-- `pyFind` lands on the sought character. -/
theorem pyFind_drop (ch : Char) :
    ∀ (l : List Char) (i : Nat), pyFind ch l = some i →
    (l.drop i).head? = some ch := by
  intro l
  induction l with
  | nil => intro i h; simp [pyFind] at h
  | cons c cs ih =>
    intro i h
    by_cases hc : c = ch
    · simp [pyFind, hc] at h
      subst h
      simp [hc]
    · simp [pyFind, hc] at h
      rcases h with ⟨j, hj, rfl⟩
      simpa using ih j hj

/-- `pyFind` fails exactly on strings not containing the character. -/
theorem pyFind_eq_none (ch : Char) :
    ∀ l : List Char, pyFind ch l = none ↔ ch ∉ l := by
  intro l
  induction l with
  | nil => simp [pyFind]
  | cons c cs ih =>
    by_cases hc : c = ch
    · simp [pyFind, hc]
    · simp [pyFind, hc, ih]
      intro h
      exact fun he => hc he.symm

/-- C9: the tokenization-failure path of the Split operation never
propagates the failure: it degrades to a split at the first literal `#`
(the comment part then starts with `#` and reassembles with the code part
to the original line), or to the whole stripped line with an empty
comment when no `#` occurs. -/
theorem C9_prop (line : List Char) :
    ('#' ∈ line →
      (split_code_and_comment line none).2.head? = some '#' ∧
      ∃ ws, (∀ ch ∈ ws, pyIsSpace ch = true) ∧
        (split_code_and_comment line none).1 ++ ws ++
          (split_code_and_comment line none).2 = line) ∧
    ('#' ∉ line → split_code_and_comment line none = (rstrip line, [])) := by
  constructor
  · intro hmem
    match hf : pyFind '#' line with
    | none => exact absurd ((pyFind_eq_none '#' line).mp hf) (by simp [hmem])
    | some i =>
      constructor
      · show (split_code_and_comment line none).2.head? = some '#'
        rw [show split_code_and_comment line none =
            (rstrip (line.take i), line.drop i) from by
          simp [split_code_and_comment, hf]]
        exact pyFind_drop '#' line i hf
      · rcases rstrip_append (line.take i) with ⟨w, hw, hsplit⟩
        refine ⟨w, hw, ?_⟩
        rw [show split_code_and_comment line none =
            (rstrip (line.take i), line.drop i) from by
          simp [split_code_and_comment, hf]]
        show rstrip (line.take i) ++ w ++ line.drop i = line
        rw [List.append_assoc, ← List.append_assoc (rstrip (line.take i)),
          hsplit]
        · exact List.take_append_drop i line
  · intro hmem
    have hf : pyFind '#' line = none := (pyFind_eq_none '#' line).mpr hmem
    simp [split_code_and_comment, hf]

/-- C9 witness: the fallback split of `x = "s  # hi` (a line the
tokenizer rejects as an unterminated string) lands on the `#` and
reassembles. -/
theorem C9_witness :
    (split_code_and_comment "x = \x22s  # hi".data none).2.head? =
        some '#' ∧
      ∃ ws, (∀ ch ∈ ws, pyIsSpace ch = true) ∧
        (split_code_and_comment "x = \x22s  # hi".data none).1 ++ ws ++
          (split_code_and_comment "x = \x22s  # hi".data none).2 =
          "x = \x22s  # hi".data :=
  (C9_prop "x = \x22s  # hi".data).1 (by decide)

/-- `split(",")` never returns an empty list of pieces. -/
theorem splitOnComma_ne_nil : ∀ s : List Char, splitOnComma s ≠ [] := by
  intro s
  match s with
  | [] => simp [splitOnComma]
  | c :: cs =>
    have := splitOnComma_ne_nil cs
    simp only [splitOnComma]
    match h : splitOnComma cs with
    | [] => exact absurd h this
    | p :: ps =>
      by_cases hc : c = ','
      · simp [hc]
      · simp [hc]

/-- Pieces produced by `split(",")` contain no comma. -/
theorem splitOnComma_no_comma :
    ∀ (s w : List Char), w ∈ splitOnComma s → ',' ∉ w := by
  intro s
  induction s with
  | nil => intro w hw; simp [splitOnComma] at hw; simp [hw]
  | cons c cs ih =>
    intro w hw
    simp only [splitOnComma] at hw
    match h : splitOnComma cs with
    | [] => exact absurd h (splitOnComma_ne_nil cs)
    | p :: ps =>
      rw [h] at hw
      by_cases hc : c = ','
      · simp [hc] at hw
        rcases hw with rfl | hw
        · simp
        · exact ih w (by rw [h]; exact List.mem_cons.mpr hw)
      · simp [hc] at hw
        rcases hw with rfl | hw
        · intro hmem
          rcases List.mem_cons.mp hmem with h' | h'
          · exact hc h'.symm
          · exact ih p (by rw [h]; exact List.mem_cons_self p ps) h'
        · exact ih w (by rw [h]; exact List.mem_cons_of_mem p hw)

/-- Characters of `split(",")` pieces come from the split string. -/
theorem splitOnComma_subset :
    ∀ (s w : List Char), w ∈ splitOnComma s → ∀ c ∈ w, c ∈ s := by
  intro s
  induction s with
  | nil => intro w hw; simp [splitOnComma] at hw; simp [hw]
  | cons c cs ih =>
    intro w hw d hd
    simp only [splitOnComma] at hw
    match h : splitOnComma cs with
    | [] => exact absurd h (splitOnComma_ne_nil cs)
    | p :: ps =>
      rw [h] at hw
      by_cases hc : c = ','
      · simp [hc] at hw
        rcases hw with rfl | hw
        · simp at hd
        · exact List.mem_cons_of_mem c
            (ih w (by rw [h]; exact List.mem_cons.mpr hw) d hd)
      · simp [hc] at hw
        rcases hw with rfl | hw
        · rcases List.mem_cons.mp hd with rfl | hd'
          · exact List.mem_cons_self d cs
          · exact List.mem_cons_of_mem c
              (ih p (by rw [h]; exact List.mem_cons_self p ps) d hd')
        · exact List.mem_cons_of_mem c
            (ih w (by rw [h]; exact List.mem_cons_of_mem p hw) d hd)

/-- A comma-free string is a single `split(",")` piece. -/
theorem splitOnComma_id :
    ∀ w : List Char, ',' ∉ w → splitOnComma w = [w] := by
  intro w
  induction w with
  | nil => intro _; rfl
  | cons c cs ih =>
    intro hw
    have hc : ¬ c = ',' := fun h => hw (by simp [h])
    have hcs : ',' ∉ cs := fun h => hw (List.mem_cons_of_mem c h)
    simp only [splitOnComma, ih hcs]
    simp [hc]

/-- Splitting `w ++ "," ++ y` peels off the comma-free `w`. -/
theorem splitOnComma_append_comma :
    ∀ (w y : List Char), ',' ∉ w →
    splitOnComma (w ++ ',' :: y) = w :: splitOnComma y := by
  intro w
  induction w with
  | nil =>
    intro y _
    simp only [List.nil_append, splitOnComma]
    match h : splitOnComma y with
    | [] => exact absurd h (splitOnComma_ne_nil y)
    | p :: ps => simp
  | cons c cs ih =>
    intro y hw
    have hc : ¬ c = ',' := fun h => hw (by simp [h])
    have hcs : ',' ∉ cs := fun h => hw (List.mem_cons_of_mem c h)
    simp only [List.cons_append]
    rw [show splitOnComma (c :: (cs ++ ',' :: y)) =
        (match splitOnComma (cs ++ ',' :: y) with
         | [] => [[c]]
         | p :: ps => if c = ',' then [] :: p :: ps else (c :: p) :: ps)
      from rfl]
    rw [ih y hcs]
    simp [hc]

/-- `", ".join` produces only class characters when all words do. -/
theorem joinCS_class :
    ∀ ws : List (List Char),
    (∀ w ∈ ws, ∀ c ∈ w, classChar c = true) →
    ∀ c ∈ joinCS ws, classChar c = true := by
  intro ws
  induction ws with
  | nil => intro _ c hc; simp [joinCS] at hc
  | cons w ws ih =>
    intro hall c hc
    match ws with
    | [] => exact hall w (List.mem_cons_self w []) c (by simpa [joinCS] using hc)
    | w' :: ws' =>
      rw [show joinCS (w :: w' :: ws') = w ++ ',' :: ' ' :: joinCS (w' :: ws')
        from rfl] at hc
      rcases List.mem_append.mp hc with h | h
      · exact hall w (List.mem_cons_self w _) c h
      · rcases List.mem_cons.mp h with rfl | h'
        · decide
        · rcases List.mem_cons.mp h' with rfl | h''
          · decide
          · exact ih (fun v hv => hall v (List.mem_cons_of_mem w hv)) c h''

/-- `", ".join` of a list containing a nonempty word is nonempty. -/
theorem joinCS_ne_nil :
    ∀ (ws : List (List Char)) (w : List Char), w ∈ ws → w ≠ [] →
    joinCS ws ≠ [] := by
  intro ws
  match ws with
  | [] => intro w hw; simp at hw
  | [v] =>
    intro w hw hne
    simp at hw
    subst hw
    simpa [joinCS] using hne
  | v :: v' :: ws' =>
    intro w _ _
    rw [show joinCS (v :: v' :: ws') = v ++ ',' :: ' ' :: joinCS (v' :: ws')
      from rfl]
    simp

/-- Re-parsing `", ".join(ws)` (space removal then comma split) recovers
`ws` exactly, for nonempty `ws` of comma-free, space-free words. -/
theorem splitOnComma_removeSpaces_joinCS :
    ∀ ws : List (List Char), ws ≠ [] →
    (∀ w ∈ ws, ',' ∉ w ∧ ' ' ∉ w) →
    splitOnComma (removeSpaces (joinCS ws)) = ws := by
  intro ws
  induction ws with
  | nil => intro h; exact absurd rfl h
  | cons w ws ih =>
    intro _ hgood
    have hw : ',' ∉ w ∧ ' ' ∉ w := hgood w (List.mem_cons_self w ws)
    have hwid : removeSpaces w = w := by
      rw [removeSpaces, List.filter_eq_self]
      intro c hc
      simp only [Bool.not_eq_eq_eq_not, Bool.not_true, decide_eq_false_iff_not]
      intro h
      exact hw.2 (h ▸ hc)
    match ws with
    | [] =>
      rw [show joinCS [w] = w from rfl, hwid]
      exact splitOnComma_id w hw.1
    | w' :: ws' =>
      rw [show joinCS (w :: w' :: ws') = w ++ ',' :: ' ' :: joinCS (w' :: ws')
        from rfl]
      rw [removeSpaces, List.filter_append, ← removeSpaces, hwid,
        ← removeSpaces]
      rw [show removeSpaces (',' :: ' ' :: joinCS (w' :: ws')) =
        ',' :: removeSpaces (joinCS (w' :: ws')) from by simp [removeSpaces]]
      rw [splitOnComma_append_comma w _ hw.1]
      rw [ih (by simp) (fun v hv => hgood v (List.mem_cons_of_mem w hv))]

theorem pySort_perm (ws : List (List Char)) : List.Perm (pySort ws) ws :=
  List.perm_insertionSort _ ws

theorem mem_pySort {w : List Char} {ws : List (List Char)} :
    w ∈ pySort ws ↔ w ∈ ws :=
  (pySort_perm ws).mem_iff

theorem pySort_nodup {ws : List (List Char)} (h : ws.Nodup) :
    (pySort ws).Nodup :=
  (pySort_perm ws).nodup_iff.mpr h

/-- A successful bracket match yields a nonempty, all-class group. -/
theorem bracketAttempt_inv (s codes rest : List Char)
    (h : bracketAttempt s = some (codes, rest)) :
    codes ≠ [] ∧ ∀ c ∈ codes, classChar c = true := by
  match s with
  | [] => simp [bracketAttempt] at h
  | c :: s1 =>
    simp only [bracketAttempt] at h
    split at h
    · split at h
      · exact absurd h (by simp)
      · split at h
        · rename_i hempty _ _ _
          rcases Option.some.inj h with h'
          have hcodes : codes = s1.takeWhile classChar :=
            (congrArg Prod.fst h').symm
          subst hcodes
          exact ⟨hempty, fun c hc => List.mem_takeWhile_imp hc⟩
        · exact absurd h (by simp)
    · exact absurd h (by simp)

/-- A successful mandatory-bracket pattern match yields a nonempty,
all-class group. -/
theorem matchTIBr_inv (s codes rest : List Char)
    (h : matchTIBr s = some (codes, rest)) :
    codes ≠ [] ∧ ∀ c ∈ codes, classChar c = true := by
  rw [matchTIBr] at h
  cases hh : matchTIHead s with
  | none => rw [hh] at h; exact absurd h (by simp)
  | some s5 =>
    rw [hh] at h
    exact bracketAttempt_inv s5 codes rest h

/-- Leftmost search for the mandatory-bracket pattern yields a nonempty,
all-class group. -/
theorem searchTIBr_inv :
    ∀ (s codes : List Char), searchTIBr s = some codes →
    codes ≠ [] ∧ ∀ c ∈ codes, classChar c = true := by
  intro s
  induction s with
  | nil => intro codes h; simp [searchTIBr] at h
  | cons c cs ih =>
    intro codes h
    rw [searchTIBr] at h
    cases hm : matchTIBr (c :: cs) with
    | none => rw [hm] at h; exact ih codes h
    | some p =>
      rw [hm] at h
      rcases Option.some.inj h with rfl
      exact matchTIBr_inv (c :: cs) p.1 p.2 (by rw [hm])

theorem oldSet_nodup (comment : List Char) : (oldSet comment).Nodup := by
  rw [oldSet]
  cases searchTIBr comment with
  | none => exact List.nodup_nil
  | some codes => exact List.nodup_dedup _

theorem oldSet_good (comment : List Char) :
    ∀ w ∈ oldSet comment, ',' ∉ w ∧ ' ' ∉ w := by
  intro w hw
  rw [oldSet] at hw
  cases hs : searchTIBr comment with
  | none => rw [hs] at hw; simp at hw
  | some codes =>
    rw [hs] at hw
    rw [List.mem_dedup] at hw
    constructor
    · exact splitOnComma_no_comma _ w hw
    · intro hsp
      have := splitOnComma_subset _ w hw ' ' hsp
      rw [removeSpaces, List.mem_filter] at this
      simp at this

theorem oldSet_class (comment : List Char) :
    ∀ w ∈ oldSet comment, ∀ c ∈ w, classChar c = true := by
  intro w hw c hc
  rw [oldSet] at hw
  cases hs : searchTIBr comment with
  | none => rw [hs] at hw; simp at hw
  | some codes =>
    rw [hs] at hw
    rw [List.mem_dedup] at hw
    have hmem : c ∈ removeSpaces codes := splitOnComma_subset _ w hw c hc
    rw [removeSpaces, List.mem_filter] at hmem
    exact (searchTIBr_inv comment codes hs).2 c hmem.1

/-- `add_type_ignore_comment` always emits the canonical layout:
marker, bracket holding the sorted union of new and existing codes, and
the rebuilt free-text tail. -/
theorem add_structure (comment : List Char) (ecs : List (List Char)) :
    add_type_ignore_comment comment ecs =
      "# type: ignore[".data ++
        joinCS (pySort (ecs ++ (oldSet comment).filter
          (fun e => !(decide (e ∈ ecs))))) ++ ']' :: addTail comment := by
  rw [add_type_ignore_comment, oldSet, addTail]
  cases searchTIBr comment with
  | some codes => rfl
  | none => simp

/-- Searching the output of `add_type_ignore_comment` recovers exactly
the joined sorted union, whatever the rebuilt tail looks like. -/
theorem searchTIBr_add (comment : List Char) (ecs : List (List Char))
    (hne : ∃ w ∈ ecs, w ≠ [])
    (hclass : ∀ w ∈ ecs, ∀ c ∈ w, classChar c = true) :
    searchTIBr (add_type_ignore_comment comment ecs) =
      some (joinCS (pySort (ecs ++ (oldSet comment).filter
        (fun e => !(decide (e ∈ ecs)))))) := by
  rw [add_structure]
  have hmemall : ∀ w ∈ pySort (ecs ++ (oldSet comment).filter
      (fun e => !(decide (e ∈ ecs)))), ∀ c ∈ w, classChar c = true := by
    intro w hw
    rw [mem_pySort] at hw
    rcases List.mem_append.mp hw with h | h
    · exact hclass w h
    · exact oldSet_class comment w (List.mem_filter.mp h).1
  apply searchTIBr_canonical
  · rcases hne with ⟨w, hw, hwne⟩
    apply joinCS_ne_nil _ w _ hwne
    rw [mem_pySort]
    exact List.mem_append.mpr (Or.inl hw)
  · exact joinCS_class _ hmemall

/-- The codes recorded in the output of `add_type_ignore_comment` parse
back to exactly the sorted union list (as the next add will read them). -/
theorem oldSet_add (comment : List Char) (ecs : List (List Char))
    (hne : ∃ w ∈ ecs, w ≠ [])
    (hclass : ∀ w ∈ ecs, ∀ c ∈ w, classChar c = true)
    (hgood : ∀ w ∈ ecs, ',' ∉ w ∧ ' ' ∉ w)
    (hnodup : ecs.Nodup) :
    oldSet (add_type_ignore_comment comment ecs) =
      pySort (ecs ++ (oldSet comment).filter
        (fun e => !(decide (e ∈ ecs)))) := by
  have hof : oldSet (add_type_ignore_comment comment ecs) =
      (splitOnComma (removeSpaces (joinCS (pySort (ecs ++
        (oldSet comment).filter (fun e => !(decide (e ∈ ecs)))))))).dedup := by
    rw [oldSet, searchTIBr_add comment ecs hne hclass]
  rw [hof]
  have hFnodup : (ecs ++ (oldSet comment).filter
      (fun e => !(decide (e ∈ ecs)))).Nodup := by
    rw [List.nodup_append]
    refine ⟨hnodup, (oldSet_nodup comment).filter _, ?_⟩
    intro x hx hxf
    rcases List.mem_filter.mp hxf with ⟨_, hpred⟩
    simp at hpred
    exact hpred hx
  rw [splitOnComma_removeSpaces_joinCS]
  · exact List.dedup_eq_self.mpr (pySort_nodup hFnodup)
  · rcases hne with ⟨w, hw, _⟩
    apply List.ne_nil_of_mem (a := w)
    rw [mem_pySort]
    exact List.mem_append.mpr (Or.inl hw)
  · intro w hw
    rw [mem_pySort] at hw
    rcases List.mem_append.mp hw with h | h
    · exact hgood w h
    · exact oldSet_good comment w (List.mem_filter.mp h).1

/-- C7: adding `{"a","c"}` and then `{"b"}` yields the same canonical
bracket content (the leftmost annotation's code group) as adding
`{"a","b","c"}` at once, for every starting comment: both equal the
sorted, deduplicated union of the added codes with the codes already
present. -/
theorem C7_prop (comment : List Char) :
    searchTIBr (add_type_ignore_comment
        (add_type_ignore_comment comment ["a".data, "c".data])
        ["b".data]) =
      searchTIBr (add_type_ignore_comment comment
        ["a".data, "b".data, "c".data]) := by
  have hac_ne : ∃ w ∈ ["a".data, "c".data], w ≠ [] :=
    ⟨"a".data, by simp, by decide⟩
  have hac_class : ∀ w ∈ ["a".data, "c".data], ∀ c ∈ w, classChar c = true :=
    by decide
  have hac_good : ∀ w ∈ ["a".data, "c".data], ',' ∉ w ∧ ' ' ∉ w := by decide
  have hac_nodup : (["a".data, "c".data]).Nodup := by decide
  have hb_ne : ∃ w ∈ ["b".data], w ≠ [] := ⟨"b".data, by simp, by decide⟩
  have hb_class : ∀ w ∈ ["b".data], ∀ c ∈ w, classChar c = true := by decide
  have habc_ne : ∃ w ∈ ["a".data, "b".data, "c".data], w ≠ [] :=
    ⟨"a".data, by simp, by decide⟩
  have habc_class :
      ∀ w ∈ ["a".data, "b".data, "c".data], ∀ c ∈ w, classChar c = true :=
    by decide
  have habc_nodup : (["a".data, "b".data, "c".data]).Nodup := by decide
  have hold1 := oldSet_add comment ["a".data, "c".data] hac_ne hac_class
    hac_good hac_nodup
  rw [searchTIBr_add _ ["b".data] hb_ne hb_class,
    searchTIBr_add _ _ habc_ne habc_class, hold1]
  have hF1nodup : (["a".data, "c".data] ++ (oldSet comment).filter
      (fun e => !(decide (e ∈ ["a".data, "c".data])))).Nodup := by
    rw [List.nodup_append]
    refine ⟨hac_nodup, (oldSet_nodup comment).filter _, ?_⟩
    intro x hx hxf
    rcases List.mem_filter.mp hxf with ⟨_, hpred⟩
    simp at hpred hx
    tauto
  have hN2 : (["b".data] ++ (pySort (["a".data, "c".data] ++
      (oldSet comment).filter
        (fun e => !(decide (e ∈ ["a".data, "c".data]))))).filter
      (fun e => !(decide (e ∈ ["b".data])))).Nodup := by
    rw [List.nodup_append]
    refine ⟨by simp, (pySort_nodup hF1nodup).filter _, ?_⟩
    intro x hx hxf
    rcases List.mem_filter.mp hxf with ⟨_, hpred⟩
    simp at hpred hx
    tauto
  have hNR : (["a".data, "b".data, "c".data] ++ (oldSet comment).filter
      (fun e => !(decide (e ∈ ["a".data, "b".data, "c".data])))).Nodup := by
    rw [List.nodup_append]
    refine ⟨habc_nodup, (oldSet_nodup comment).filter _, ?_⟩
    intro x hx hxf
    rcases List.mem_filter.mp hxf with ⟨_, hpred⟩
    simp at hpred hx
    tauto
  have hperm : List.Perm
      (["b".data] ++ (pySort (["a".data, "c".data] ++
        (oldSet comment).filter
          (fun e => !(decide (e ∈ ["a".data, "c".data]))))).filter
        (fun e => !(decide (e ∈ ["b".data]))))
      (["a".data, "b".data, "c".data] ++ (oldSet comment).filter
        (fun e => !(decide (e ∈ ["a".data, "b".data, "c".data])))) := by
    rw [List.perm_ext_iff_of_nodup hN2 hNR]
    intro x
    simp only [List.mem_append, List.mem_cons, List.mem_filter, mem_pySort,
      List.not_mem_nil, or_false, Bool.not_eq_eq_eq_not, Bool.not_true,
      decide_eq_false_iff_not]
    tauto
  have hsorts : pySort (["b".data] ++ (pySort (["a".data, "c".data] ++
      (oldSet comment).filter
        (fun e => !(decide (e ∈ ["a".data, "c".data]))))).filter
      (fun e => !(decide (e ∈ ["b".data])))) =
      pySort (["a".data, "b".data, "c".data] ++ (oldSet comment).filter
        (fun e => !(decide (e ∈ ["a".data, "b".data, "c".data])))) := by
    exact List.eq_of_perm_of_sorted (r := (· ≤ ·))
      ((pySort_perm _).trans (hperm.trans (pySort_perm _).symm))
      (List.sorted_insertionSort _ _) (List.sorted_insertionSort _ _)
  rw [hsorts]


